import Mathlib

/-!
Shallow embedding of `most_common_schedule_by_genre.py`: a pure-Python CSV
parser plus the computation of the most common schedule (time) per genre.
Strings are modelled as Lean `String`/`List Char`; Python dicts are modelled
as association lists with insertion-order semantics (a new key is appended at
the end, an existing key is updated in place).  The embedding restricts
Python's `str.strip()` / `str.lower()` to their ASCII behaviour, which covers
every string the program's specification talks about.
-/

/-- The double-quote character. -/
def dquote : Char := Char.ofNat 34

/-- The single-quote character. -/
def squote : Char := Char.ofNat 39

/-- ASCII whitespace as recognised by Python `str.strip()`:
space, tab, newline, carriage return, vertical tab, form feed. -/
def pyIsSpace (c : Char) : Bool :=
  c == ' ' || c == Char.ofNat 9 || c == Char.ofNat 10 || c == Char.ofNat 13
    || c == Char.ofNat 11 || c == Char.ofNat 12

/-- Python `str.strip()` on a character list: drop whitespace from both ends. -/
def pyStrip (l : List Char) : List Char :=
  ((l.dropWhile pyIsSpace).reverse.dropWhile pyIsSpace).reverse

/-- Python `str.strip()` on a `String`. -/
def pyStripS (s : String) : String :=
  String.mk (pyStrip s.data)

/-- Is the character a single or double quote?  (Python `.strip('"\x27')` set.) -/
def isQuoteCh (c : Char) : Bool :=
  c == dquote || c == squote

/-- Python `str.strip('"\x27')`: drop quote characters from both ends. -/
def stripQuoteChars (l : List Char) : List Char :=
  ((l.dropWhile isQuoteCh).reverse.dropWhile isQuoteCh).reverse

/-- Lexicographic comparison of character lists by code point,
Python's `<` on strings. -/
def charListLt : List Char → List Char → Bool
  | [], [] => false
  | [], _ :: _ => true
  | _ :: _, [] => false
  | a :: as, b :: bs => if a < b then true else if b < a then false else charListLt as bs

/-- Python string `<`. -/
def strLtB (a b : String) : Bool :=
  charListLt a.data b.data

/-- Python ASCII `str.lower()`. -/
def lowerS (s : String) : String :=
  String.mk (s.data.map Char.toLower)

/-- Does the first list occur at the very start of the second? -/
def leadsWith : List Char → List Char → Bool
  | [], _ => true
  | _ :: _, [] => false
  | a :: as, b :: bs => a == b && leadsWith as bs

/-- Python's `pat in s` substring test. -/
def containsSub (s pat : String) : Bool :=
  (List.range (s.data.length + 1)).any (fun i => leadsWith pat.data (s.data.drop i))

/-!  `split_csv_line` (source lines 19-54): the character-by-character scan. -/

/-- The scanning loop of `split_csv_line` (source lines 24-49).  Arguments:
remaining input, the `in_quotes` flag, the current field accumulated in
reverse.  Returns the raw fields before post-processing. -/
def scanRaw : List Char → Bool → List Char → List (List Char)
  | [], _, cur => [cur.reverse]
  | c :: rest, inq, cur =>
      if inq then
        if c = dquote then
          match rest with
          | c2 :: rest2 =>
              if c2 = dquote then scanRaw rest2 true (dquote :: cur)
              else scanRaw (c2 :: rest2) false cur
          | [] => scanRaw [] false cur
        else scanRaw rest true (c :: cur)
      else
        if c = dquote then scanRaw rest true cur
        else if c = ',' then cur.reverse :: scanRaw rest false []
        else scanRaw rest false (c :: cur)

/-- Post-processing of one assembled field (source lines 51-54): keep it
verbatim when it has length > 1 and begins and ends with a double quote,
otherwise whitespace-trim it. -/
def postField (f : List Char) : String :=
  if 1 < f.length ∧ f.head? = some dquote ∧ f.getLast? = some dquote
  then String.mk f else String.mk (pyStrip f)

/-- `split_csv_line` (source lines 19-54). -/
def split_csv_line (line : String) : List String :=
  (scanRaw line.data false []).map postField

/-!  `iter_csv_rows` (source lines 57-69).  The file is modelled as the list
of its physical lines with the trailing newline already removed (the
`raw_line.rstrip` of line 62). -/

/-- Buffer extension of source line 63. -/
def appendLine (buf line : String) : String :=
  if buf = "" then line else buf ++ "\n" ++ line

/-- One iteration of the reader loop (source lines 61-69) on the state
(records emitted so far, pending buffer). -/
def readerStep (st : List String × String) (line : String) : List String × String :=
  if (appendLine st.2 line).data.count dquote % 2 = 0
  then (st.1 ++ [appendLine st.2 line], "")
  else (st.1, appendLine st.2 line)

/-- The full reader loop: emitted raw logical records and the final buffer. -/
def readerFold (lines : List String) : List String × String :=
  lines.foldl readerStep ([], "")

/-- `iter_csv_rows` (source lines 57-69): the emitted records, split;
the final pending buffer is dropped. -/
def iter_csv_rows (lines : List String) : List (List String) :=
  (readerFold lines).1.map split_csv_line

/-!  `extract_genres` (source lines 72-112). -/

/-- State of the bracketed-list scan (source lines 81-108).  The Python loop
advances its index `i` by varying amounts; this embedding walks the same
characters one at a time: `inQ q cur` is the loop with `in_q = True` and
open quote `q`; `tok t` is the inner unquoted-token scan from `i` to the next
comma (lines 101-108); `skip` is the separator-skipping loop of line 95;
`idle` is the loop head at a fresh position. -/
inductive GMode where
  | idle : GMode
  | skip : GMode
  | inQ : Char → List Char → GMode
  | tok : List Char → GMode

/-- Finish an unquoted token (source lines 105-107): strip whitespace, then
quote characters, and append it when non-empty. -/
def finishTok (acc : List String) (t : List Char) : List String :=
  let tk := stripQuoteChars (pyStrip t)
  if tk.isEmpty then acc else acc ++ [String.mk tk]

/-- The bracketed-list scanning loop of `extract_genres`
(source lines 81-109). -/
def bracketScan : List Char → GMode → List String → List String
  | [], GMode.idle, acc => acc
  | [], GMode.skip, acc => acc
  | [], GMode.inQ _ _, acc => acc
  | [], GMode.tok t, acc => finishTok acc t
  | c :: rest, GMode.idle, acc =>
      if c = dquote ∨ c = squote then bracketScan rest (GMode.inQ c []) acc
      else if c = ',' then bracketScan rest GMode.idle acc
      else bracketScan rest (GMode.tok [c]) acc
  | c :: rest, GMode.skip, acc =>
      if c = ',' ∨ c = ' ' then bracketScan rest GMode.skip acc
      else if c = dquote ∨ c = squote then bracketScan rest (GMode.inQ c []) acc
      else bracketScan rest (GMode.tok [c]) acc
  | c :: rest, GMode.inQ q cur, acc =>
      if c = q then bracketScan rest GMode.skip (acc ++ [String.mk cur])
      else bracketScan rest (GMode.inQ q (cur ++ [c])) acc
  | c :: rest, GMode.tok t, acc =>
      if c = ',' then bracketScan rest GMode.idle (finishTok acc t)
      else bracketScan rest (GMode.tok (t ++ [c])) acc

/-- Python `str.split(',')`: split on every comma, keeping empty pieces. -/
def splitCommas : List Char → List (List Char)
  | [] => [[]]
  | c :: t =>
      if c = ',' then [] :: splitCommas t
      else
        match splitCommas t with
        | h :: r => (c :: h) :: r
        | [] => [[c]]

/-- `extract_genres` (source lines 72-112). -/
def extract_genres (genre_field : String) : List String :=
  let f0 := pyStrip genre_field.data
  let f1 := if f0.head? = some dquote ∧ f0.getLast? = some dquote
            then (f0.drop 1).dropLast else f0
  if f1.head? = some '[' ∧ f1.getLast? = some ']' then
    bracketScan (pyStrip ((f1.drop 1).dropLast)) GMode.idle []
  else
    ((splitCommas f1).filter (fun g => !(pyStrip g).isEmpty)).map
      (fun g => String.mk (stripQuoteChars (pyStrip g)))

/-!  Python dicts as insertion-ordered association lists. -/

/-- First-match lookup in an association list (dict access). -/
def dictLookup {β : Type} : List (String × β) → String → Option β
  | [], _ => none
  | (k2, v) :: t, k => if k2 = k then some v else dictLookup t k

/-- Dict assignment `d[k] = v`: update the existing key in place, else
append the new key at the end (Python insertion-order semantics). -/
def dictInsert {β : Type} : List (String × β) → String → β → List (String × β)
  | [], k, v => [(k, v)]
  | (k2, v2) :: t, k, v =>
      if k2 = k then (k2, v) :: t else (k2, v2) :: dictInsert t k v

/-- The Frequency Table: genre → (schedule value → count). -/
abbrev Counts : Type := List (String × List (String × Nat))

/-- The count recorded for genre `g` and schedule `t` (0 when absent). -/
def countOf (c : Counts) (g t : String) : Nat :=
  (dictLookup ((dictLookup c g).getD []) t).getD 0

/-- One increment (source lines 150-151):
`counts.setdefault(genre, {})[time] += 1`. -/
def addGenre (c : Counts) (g t : String) : Counts :=
  let gc := (dictLookup c g).getD []
  dictInsert c g (dictInsert gc t ((dictLookup gc t).getD 0 + 1))

/-- Processing of one data row (source lines 137-151). -/
def processRow (gcol scol : Nat) (c : Counts) (row : List String) : Counts :=
  if row.length ≤ max gcol scol then c
  else if pyStripS (row.getD scol "") = "" then c
  else
    (extract_genres (row.getD gcol "")).foldl
      (fun c2 g => if g = "" then c2 else addGenre c2 g (pyStripS (row.getD scol ""))) c

/-!  Column resolution (source lines 125-132). -/

/-- `enumerate(header)` with `str.strip()` applied to each name,
starting at index `n`. -/
def headerPairs : Nat → List String → List (String × Nat)
  | _, [] => []
  | n, h :: t => (pyStripS h, n) :: headerPairs (n + 1) t

/-- The `header_map` dict comprehension of source line 125: on duplicate
trimmed names the later index wins while the key keeps its first position. -/
def headerMap (header : List String) : List (String × Nat) :=
  (headerPairs 0 header).foldl (fun d p => dictInsert d p.1 p.2) []

/-- Does a (trimmed) header name contain `genre`, case-insensitively? -/
def hasGenreName (h : String) : Bool :=
  containsSub (lowerS (pyStripS h)) "genre"

/-- Does a (trimmed) header name contain both `schedule` and `time`,
case-insensitively? -/
def hasScheduleName (h : String) : Bool :=
  containsSub (lowerS (pyStripS h)) "schedule" && containsSub (lowerS (pyStripS h)) "time"

/-- `genres_col` (source line 126): first matching entry of `header_map`. -/
def genresColOf (header : List String) : Option Nat :=
  ((headerMap header).find? (fun p => containsSub (lowerS p.1) "genre")).map Prod.snd

/-- `schedule_col` (source line 127). -/
def scheduleColOf (header : List String) : Option Nat :=
  ((headerMap header).find?
    (fun p => containsSub (lowerS p.1) "schedule" && containsSub (lowerS p.1) "time")).map
    Prod.snd

/-!  The Resolver (source lines 153-158) and the top-level function. -/

/-- Strict comparison of the sort keys `(count, time)` used by the `max`
call of source line 157. -/
def keyLtB (a b : String × Nat) : Bool :=
  Nat.blt a.2 b.2 || (a.2 == b.2 && strLtB a.1 b.1)

/-- Python `max(time_counts.items(), key=(count, time))` followed by `[0]`:
fold keeping the current maximum, replacing it only on a strictly greater
key.  Total on non-empty lists; `none` models the `ValueError` Python would
raise on an empty dict. -/
def bestTime : List (String × Nat) → Option String
  | [] => none
  | x :: xs => some ((xs.foldl (fun b y => if keyLtB b y then y else b) x).1)

/-- The result-building loop (source lines 154-158).  Python's `max` raises
on an empty inner dict; reachable Frequency Tables never contain one (see
the invariant theorem), so the embedding flattens with `filterMap`. -/
def resultOf (c : Counts) : List (String × String) :=
  c.filterMap (fun p => (bestTime p.2).map (fun t => (p.1, t)))

/-- The body of `get_most_common_schedule_by_genre` after reading
(source lines 119-160), on the list of parsed rows.  The empty list models
the `StopIteration` of line 121; the genre-column check of line 129 precedes
the schedule check of line 131. -/
def aggregateRows : List (List String) → Except String (List (String × String))
  | [] => Except.ok []
  | header :: dataRows =>
      match genresColOf header, scheduleColOf header with
      | none, _ => Except.error "Could not find a Genres column in header"
      | some _, none => Except.error "Could not find a Schedule (time) column in header"
      | some g, some s =>
          Except.ok (resultOf (dataRows.foldl (processRow g s) []))

/-- `get_most_common_schedule_by_genre` (source lines 115-160) on the
physical lines of the file. -/
def get_most_common_schedule_by_genre (lines : List String) :
    Except String (List (String × String)) :=
  aggregateRows (iter_csv_rows lines)

/-- Modelled from the spec: the claim-side column rule, the first header in
header order whose name satisfies the predicate. -/
def findIdxO (p : String → Bool) : List String → Option Nat
  | [] => none
  | h :: t => if p h then some 0 else (findIdxO p t).map (· + 1)

/-- Doubling of quote characters, the inverse image of the escaped-quote
collapsing rule of the Record Splitter. -/
def escapeQuotes : List Char → List Char
  | [] => []
  | c :: t => if c = dquote then dquote :: dquote :: escapeQuotes t else c :: escapeQuotes t

/-!  Step lemmas for the Record Splitter scan. -/

lemma scanRaw_nil (b : Bool) (cur : List Char) : scanRaw [] b cur = [cur.reverse] := by
  cases b <;> rfl

lemma scanRaw_inq_other (c : Char) (hc : c ≠ dquote) (rest cur : List Char) :
    scanRaw (c :: rest) true cur = scanRaw rest true (c :: cur) := by
  rw [scanRaw.eq_def]
  simp [hc]

lemma scanRaw_inq_esc (rest cur : List Char) :
    scanRaw (dquote :: dquote :: rest) true cur = scanRaw rest true (dquote :: cur) := by
  simp [scanRaw]

lemma scanRaw_inq_close_end (cur : List Char) :
    scanRaw [dquote] true cur = [cur.reverse] := by
  simp [scanRaw]

lemma scanRaw_inq_close (c : Char) (hc : c ≠ dquote) (rest cur : List Char) :
    scanRaw (dquote :: c :: rest) true cur = scanRaw (c :: rest) false cur := by
  simp [scanRaw, hc]

lemma scanRaw_out_quote (rest cur : List Char) :
    scanRaw (dquote :: rest) false cur = scanRaw rest true cur := by
  rw [scanRaw.eq_def]
  simp

lemma scanRaw_out_comma (rest cur : List Char) :
    scanRaw (',' :: rest) false cur = cur.reverse :: scanRaw rest false [] := by
  rw [scanRaw.eq_def]
  have h : ¬ (',' : Char) = dquote := by decide
  simp [h]

lemma scanRaw_out_other (c : Char) (hc : c ≠ dquote) (hc2 : c ≠ ',') (rest cur : List Char) :
    scanRaw (c :: rest) false cur = scanRaw rest false (c :: cur) := by
  rw [scanRaw.eq_def]
  simp [hc, hc2]

/-- Inside a quoted region, quote-free text is copied verbatim. -/
lemma scan_plain (s : List Char) (h : dquote ∉ s) (rest cur : List Char) :
    scanRaw (s ++ rest) true cur = scanRaw rest true (s.reverse ++ cur) := by
  induction s generalizing cur with
  | nil => simp
  | cons c t ih =>
      have hc : c ≠ dquote := fun hce => h (hce ▸ List.mem_cons_self c t)
      have ht : dquote ∉ t := fun hm => h (List.mem_cons_of_mem c hm)
      rw [List.cons_append, scanRaw_inq_other c hc, ih ht]
      simp

/-- Inside a quoted region, quote-doubled text is collapsed and the closing
quote exits the region, provided the following character is not a quote. -/
lemma scan_escaped (s : List Char) (rest cur : List Char)
    (h : rest.head? ≠ some dquote) :
    scanRaw (escapeQuotes s ++ dquote :: rest) true cur
      = scanRaw rest false (s.reverse ++ cur) := by
  induction s generalizing cur with
  | nil =>
      cases rest with
      | nil => simp [escapeQuotes, scanRaw]
      | cons c2 rest2 =>
          have hc2 : c2 ≠ dquote := by
            intro hce
            exact h (by simp [hce])
          simp [escapeQuotes, scanRaw_inq_close c2 hc2]
  | cons c t ih =>
      by_cases hc : c = dquote
      · subst hc
        rw [show escapeQuotes (dquote :: t) ++ dquote :: rest
              = dquote :: dquote :: (escapeQuotes t ++ dquote :: rest) by
            simp [escapeQuotes]]
        rw [scanRaw_inq_esc, ih (dquote :: cur)]
        simp
      · rw [show escapeQuotes (c :: t) ++ dquote :: rest
              = c :: (escapeQuotes t ++ dquote :: rest) by simp [escapeQuotes, hc]]
        rw [scanRaw_inq_other c hc, ih]
        simp

/-- C2 counterexample: the Record Splitter does NOT keep the surrounding
whitespace of a source-quoted field: splitting the record consisting of the
single quoted field with content two-spaces x two-spaces yields the trimmed
field, not the verbatim content. -/
theorem c2_cex :
    split_csv_line "\"  x  \"" = ["x"] ∧ split_csv_line "\"  x  \"" ≠ ["  x  "] := by
  constructor <;> decide

/-- C2 (amended): a field is left untrimmed exactly when its assembled
content (delimiting quotes removed, doubled quotes collapsed) has length > 1
and begins and ends with a literal double quote; a source-quoted field whose
content has no double quote is therefore whitespace-trimmed, while a field
whose content is wrapped in escaped (doubled) quotes is kept verbatim. -/
theorem c2_amended (s : List Char) (h : dquote ∉ s) :
    split_csv_line (String.mk (dquote :: s ++ [dquote])) = [String.mk (pyStrip s)] ∧
    split_csv_line (String.mk (dquote :: dquote :: dquote :: s ++ [dquote, dquote, dquote]))
      = [String.mk (dquote :: s ++ [dquote])] := by
  constructor
  · show (scanRaw (dquote :: s ++ [dquote]) false []).map postField = _
    simp only [List.cons_append]
    rw [scanRaw_out_quote, scan_plain s h [dquote] [], scanRaw_inq_close_end]
    have hrev : (s.reverse ++ ([] : List Char)).reverse = s := by simp
    rw [hrev]
    have hcond : ¬(1 < s.length ∧ s.head? = some dquote ∧ s.getLast? = some dquote) := by
      rintro ⟨h1, h2, h3⟩
      cases s with
      | nil => simp at h2
      | cons a t =>
          simp only [List.head?_cons, Option.some.injEq] at h2
          exact h (h2 ▸ List.mem_cons_self a t)
    simp [postField, hcond]
  · show (scanRaw (dquote :: dquote :: dquote :: s ++ [dquote, dquote, dquote]) false []).map
      postField = _
    simp only [List.cons_append]
    rw [scanRaw_out_quote, scanRaw_inq_esc, scan_plain s h [dquote, dquote, dquote] [dquote],
      scanRaw_inq_esc, scanRaw_inq_close_end]
    have hrev : (dquote :: (s.reverse ++ [dquote])).reverse = (dquote :: s) ++ [dquote] := by
      simp
    rw [hrev]
    have hcond : 1 < ((dquote :: s) ++ [dquote]).length
        ∧ ((dquote :: s) ++ [dquote]).head? = some dquote
        ∧ ((dquote :: s) ++ [dquote]).getLast? = some dquote := by
      refine ⟨?_, by simp, ?_⟩
      · simp only [List.length_append, List.length_cons, List.length_nil]
        omega
      · rw [List.getLast?_append_cons]
        rfl
    have hpf : postField ((dquote :: s) ++ [dquote]) = String.mk ((dquote :: s) ++ [dquote]) := by
      unfold postField
      rw [if_pos hcond]
    simp only [List.map_cons, List.map_nil, hpf]
    rfl

/-- C2 witness: the amended theorem applied to the content two-spaces x
two-spaces. -/
theorem c2_witness :
    split_csv_line (String.mk (dquote :: ("  x  ").data ++ [dquote]))
      = [String.mk (pyStrip ("  x  ").data)] :=
  (c2_amended ("  x  ").data (by decide)).1

/-- C6 counterexample: a quoted field with an embedded comma is returned as a
single field, but NOT verbatim equal to its unescaped content: surrounding
whitespace of the content is trimmed away. -/
theorem c6_cex :
    split_csv_line "\" a, b \"" = ["a, b"] ∧ split_csv_line "\" a, b \"" ≠ [" a, b "] := by
  constructor <;> decide

/-- C6 (amended): for every content `s`, splitting the single quoted field
that encodes `s` with doubled quotes yields exactly one field: the assembled
content `s` itself (embedded commas not split on, each doubled quote pair
collapsed to one literal quote), whitespace-trimmed unless `s` has length > 1
and begins and ends with a double quote.  Concrete instances: an embedded
comma inside a quoted field among other fields, and doubled-quote collapsing. -/
theorem c6_amended :
    (∀ s : List Char,
      split_csv_line (String.mk (dquote :: escapeQuotes s ++ [dquote]))
        = [if 1 < s.length ∧ s.head? = some dquote ∧ s.getLast? = some dquote
           then String.mk s else String.mk (pyStrip s)])
  ∧ split_csv_line "a,\"b, c\",d" = ["a", "b, c", "d"]
  ∧ split_csv_line "\"say \"\"hi\"\", now\"" = ["say \"hi\", now"] := by
  refine ⟨?_, by decide, by decide⟩
  intro s
  show (scanRaw (dquote :: escapeQuotes s ++ [dquote]) false []).map postField = _
  simp only [List.cons_append]
  rw [scanRaw_out_quote,
    show escapeQuotes s ++ [dquote] = escapeQuotes s ++ dquote :: [] from rfl,
    scan_escaped s [] [] (by simp), scanRaw_nil]
  have hrev : (s.reverse ++ ([] : List Char)).reverse = s := by simp
  rw [hrev]
  simp only [List.map_cons, List.map_nil]
  rfl

/-- C1: evaluation of the Resolver at the failing input: for the tied counts
8PM ↦ 3, 7PM ↦ 3 (in either dict order) the code selects 8PM, the
lexicographically largest schedule string, not 7PM as the specification and
the code's own comment demand. -/
theorem c1_tiebreak_eval :
    bestTime [("8PM", 3), ("7PM", 3)] = some "8PM"
  ∧ bestTime [("7PM", 3), ("8PM", 3)] = some "8PM"
  ∧ bestTime [("8PM", 3), ("7PM", 3)] ≠ some "7PM" := by
  refine ⟨by decide, by decide, by decide⟩

/-- C7: the Genre List Extractor on the bracketed quoted list (with and
without the surrounding double quotes) and on plain comma-separated text. -/
theorem c7_extract :
    extract_genres "\"['Action', 'Drama']\"" = ["Action", "Drama"]
  ∧ extract_genres "['Action', 'Drama']" = ["Action", "Drama"]
  ∧ extract_genres "Action, Drama" = ["Action", "Drama"] := by
  refine ⟨by decide, by decide, by decide⟩

/-- C10: an input yielding zero logical records (an empty file) produces the
empty mapping and no error at all; in particular neither missing-column
message is raised. -/
theorem c10_empty :
    get_most_common_schedule_by_genre [] = Except.ok []
  ∧ ∀ msg : String, get_most_common_schedule_by_genre [] ≠ Except.error msg := by
  constructor
  · rfl
  · intro msg h
    rw [show get_most_common_schedule_by_genre [] = Except.ok [] from rfl] at h
    exact Except.noConfusion h

/-- Invariant of the reader loop: every emitted record has an even number of
double quotes, and the pending buffer is empty or has an odd count. -/
lemma reader_inv (lines : List String) :
    ∀ st : List String × String,
      (∀ r ∈ st.1, r.data.count dquote % 2 = 0) →
      (st.2 = "" ∨ st.2.data.count dquote % 2 = 1) →
      (∀ r ∈ (lines.foldl readerStep st).1, r.data.count dquote % 2 = 0)
        ∧ ((lines.foldl readerStep st).2 = ""
            ∨ (lines.foldl readerStep st).2.data.count dquote % 2 = 1) := by
  induction lines with
  | nil => exact fun st h1 h2 => ⟨h1, h2⟩
  | cons l t ih =>
      intro st h1 h2
      simp only [List.foldl_cons]
      refine ih (readerStep st l) ?_ ?_
      · intro r hr
        unfold readerStep at hr
        by_cases hb : (appendLine st.2 l).data.count dquote % 2 = 0
        · rw [if_pos hb] at hr
          rcases List.mem_append.mp hr with hm | hm
          · exact h1 r hm
          · rw [List.mem_singleton] at hm
            subst hm
            exact hb
        · rw [if_neg hb] at hr
          exact h1 r hr
      · unfold readerStep
        by_cases hb : (appendLine st.2 l).data.count dquote % 2 = 0
        · rw [if_pos hb]
          left
          rfl
        · rw [if_neg hb]
          right
          show (appendLine st.2 l).data.count dquote % 2 = 1
          omega

/-- C5: the Tabular Row Reader extends the buffer with each physical line
(newline-joined, starting empty) and emits it as one logical record exactly
when its double-quote count is even, resetting the buffer; emitted records
always have an even quote count, the pending buffer is empty or odd, and the
trailing buffer at end of input is dropped (a multiline quoted record is
reassembled while the final unterminated line never appears). -/
theorem c5_reader :
    (∀ (lines : List String) (l : String),
        readerFold (lines ++ [l])
          = (if (appendLine (readerFold lines).2 l).data.count dquote % 2 = 0
             then ((readerFold lines).1 ++ [appendLine (readerFold lines).2 l], "")
             else ((readerFold lines).1, appendLine (readerFold lines).2 l)))
  ∧ (∀ lines : List String, ∀ r ∈ (readerFold lines).1, r.data.count dquote % 2 = 0)
  ∧ (∀ lines : List String,
        (readerFold lines).2 = "" ∨ (readerFold lines).2.data.count dquote % 2 = 1)
  ∧ (∀ lines : List String, iter_csv_rows lines = ((readerFold lines).1).map split_csv_line)
  ∧ iter_csv_rows ["a,\"b", "c\",d", "\"open"] = [["a", "b\nc", "d"]] := by
  refine ⟨?_, ?_, ?_, fun lines => rfl, by decide⟩
  · intro lines l
    unfold readerFold
    rw [List.foldl_append]
    rfl
  · intro lines
    exact (reader_inv lines ([], "") (by simp) (Or.inl rfl)).1
  · intro lines
    exact (reader_inv lines ([], "") (by simp) (Or.inl rfl)).2

/-- C5 witness: the invariant applied to a concrete two-line input whose
reassembled record indeed has an even quote count. -/
theorem c5_witness : ("a,\"b\nc\",d").data.count dquote % 2 = 0 :=
  c5_reader.2.1 ["a,\"b", "c\",d"] "a,\"b\nc\",d" (by decide)

/-- C8: once the bracketed-list scan is inside a quoted token whose closing
quote never occurs in the remaining input, it consumes everything, emits
nothing further, and returns exactly the genres accumulated so far (the
embedding is total, so no exception can occur); concretely, a field with an
unterminated second token yields only the first genre. -/
theorem c8_unterminated :
    (∀ (q : Char) (rest : List Char), ∀ (cur : List Char) (acc : List String),
        q ∉ rest → bracketScan rest (GMode.inQ q cur) acc = acc)
  ∧ extract_genres "['Action', 'Dra]" = ["Action"] := by
  constructor
  · intro q rest
    induction rest with
    | nil => exact fun cur acc h => rfl
    | cons c t ih =>
        intro cur acc h
        have hc : ¬ c = q := fun hce => h (hce ▸ List.mem_cons_self c t)
        have ht : q ∉ t := fun hm => h (List.mem_cons_of_mem c hm)
        simp only [bracketScan, if_neg hc]
        exact ih (cur ++ [c]) acc ht
  · decide

/-- C8 witness: the scan lemma applied at the concrete unterminated token. -/
theorem c8_witness :
    bracketScan ("Dra").data (GMode.inQ squote []) ["Action"] = ["Action"] :=
  c8_unterminated.1 squote ("Dra").data [] ["Action"] (by decide)

/-!  Association-list (dict) lemmas. -/

lemma dictLookup_insert {β : Type} (d : List (String × β)) (k k2 : String) (v : β) :
    dictLookup (dictInsert d k v) k2 = if k2 = k then some v else dictLookup d k2 := by
  induction d with
  | nil =>
      by_cases h2 : k2 = k
      · simp [dictInsert, dictLookup, h2]
      · have h2s : ¬ k = k2 := fun he => h2 he.symm
        simp [dictInsert, dictLookup, h2, h2s]
  | cons p t ih =>
      obtain ⟨k3, v3⟩ := p
      simp only [dictInsert]
      by_cases h3 : k3 = k
      · rw [if_pos h3]
        subst h3
        by_cases h2 : k3 = k2
        · subst h2
          simp [dictLookup]
        · have h2s : ¬ k2 = k3 := fun he => h2 he.symm
          simp [dictLookup, h2, h2s]
      · rw [if_neg h3]
        by_cases h2 : k3 = k2
        · subst h2
          simp [dictLookup, h3]
        · simp [dictLookup, h2, ih]

lemma dictLookup_mem {β : Type} (d : List (String × β)) (k : String) (v : β)
    (h : dictLookup d k = some v) : (k, v) ∈ d := by
  induction d with
  | nil => simp [dictLookup] at h
  | cons p t ih =>
      obtain ⟨k3, v3⟩ := p
      simp only [dictLookup] at h
      split at h
      · next heq =>
          injection h with hv
          subst heq
          subst hv
          exact List.mem_cons_self _ _
      · next hne =>
          exact List.mem_cons_of_mem _ (ih h)

lemma mem_dictInsert {β : Type} (d : List (String × β)) (k k2 : String) (v v2 : β)
    (h : (k2, v2) ∈ dictInsert d k v) : (k2, v2) ∈ d ∨ (k2 = k ∧ v2 = v) := by
  induction d with
  | nil =>
      simp [dictInsert] at h
      right
      exact h
  | cons p t ih =>
      obtain ⟨k3, v3⟩ := p
      simp only [dictInsert] at h
      split at h
      · next heq =>
          rcases List.mem_cons.mp h with he | hm
          · rw [Prod.mk.injEq] at he
            right
            exact ⟨he.1.trans heq, he.2⟩
          · left
            exact List.mem_cons_of_mem _ hm
      · next hne =>
          rcases List.mem_cons.mp h with he | hm
          · left
            exact he ▸ List.mem_cons_self _ _
          · rcases ih hm with hl | hr
            · left
              exact List.mem_cons_of_mem _ hl
            · right
              exact hr

lemma dictInsert_ne_nil {β : Type} (d : List (String × β)) (k : String) (v : β) :
    dictInsert d k v ≠ [] := by
  cases d with
  | nil => simp [dictInsert]
  | cons p t =>
      obtain ⟨k3, v3⟩ := p
      simp only [dictInsert]
      split <;> simp

lemma keys_dictInsert_subset {β : Type} (d : List (String × β)) (k : String) (v : β)
    (a : String) (h : a ∈ (dictInsert d k v).map Prod.fst) :
    a ∈ d.map Prod.fst ∨ a = k := by
  rw [List.mem_map] at h
  obtain ⟨p, hp, ha⟩ := h
  obtain ⟨k2, v2⟩ := p
  rcases mem_dictInsert d k k2 v v2 hp with hm | ⟨he, _⟩
  · left
    rw [List.mem_map]
    exact ⟨(k2, v2), hm, ha⟩
  · right
    subst ha
    exact he

lemma nodup_keys_dictInsert {β : Type} (d : List (String × β)) (k : String) (v : β)
    (h : (d.map Prod.fst).Nodup) : ((dictInsert d k v).map Prod.fst).Nodup := by
  induction d with
  | nil => simp [dictInsert]
  | cons p t ih =>
      obtain ⟨k3, v3⟩ := p
      simp only [dictInsert]
      split
      · next heq => simpa using h
      · next hne =>
          simp only [List.map_cons, List.nodup_cons] at h ⊢
          obtain ⟨hk3, ht⟩ := h
          refine ⟨?_, ih ht⟩
          intro hmem
          rcases keys_dictInsert_subset t k v k3 hmem with hin | heq
          · exact hk3 hin
          · exact hne heq

/-!  Count-increment lemmas for the Aggregator. -/

lemma countOf_addGenre (c : Counts) (g t g2 t2 : String) :
    countOf (addGenre c g t) g2 t2
      = countOf c g2 t2 + (if g2 = g ∧ t2 = t then 1 else 0) := by
  unfold addGenre countOf
  rw [dictLookup_insert]
  by_cases hg : g2 = g
  · rw [if_pos hg]
    subst hg
    simp only [Option.getD_some]
    rw [dictLookup_insert]
    by_cases ht : t2 = t
    · subst ht
      simp
    · rw [if_neg ht]
      simp [ht]
  · rw [if_neg hg]
    simp [hg]

lemma countOf_foldl_genres (gs : List String) (c : Counts) (time g t : String)
    (hg : g ≠ "") :
    countOf (gs.foldl (fun c2 gg => if gg = "" then c2 else addGenre c2 gg time) c) g t
      = countOf c g t + (if t = time then gs.count g else 0) := by
  induction gs generalizing c with
  | nil => simp
  | cons gg rest ih =>
      simp only [List.foldl_cons]
      by_cases hgg : gg = ""
      · rw [if_pos hgg, ih]
        subst hgg
        have hsg : ¬ ("" = g) := fun he => hg he.symm
        simp [List.count_cons, hsg]
      · rw [if_neg hgg, ih, countOf_addGenre]
        simp only [List.count_cons]
        by_cases hgeq : g = gg
        · by_cases ht : t = time
          · simp [hgeq, ht]
            omega
          · simp [hgeq, ht]
        · have hggs : ¬ (gg = g) := fun he => hgeq he.symm
          by_cases ht : t = time
          · simp [hgeq, hggs, ht]
          · simp [hgeq, hggs, ht]

lemma countOf_foldl_empty (gs : List String) (c : Counts) (time t : String) :
    countOf (gs.foldl (fun c2 gg => if gg = "" then c2 else addGenre c2 gg time) c) "" t
      = countOf c "" t := by
  induction gs generalizing c with
  | nil => rfl
  | cons gg rest ih =>
      simp only [List.foldl_cons]
      by_cases hgg : gg = ""
      · rw [if_pos hgg, ih]
      · rw [if_neg hgg, ih, countOf_addGenre]
        have hsg : ¬ ("" = gg) := fun he => hgg he.symm
        simp [hsg]

/-- C4: a data row is skipped (no change to the Frequency Table) when it is
too short to cover both resolved column indices, and when its trimmed
schedule value is empty; otherwise, for every non-empty genre string, the
genre's count for exactly the trimmed schedule string grows by the number of
occurrences of that genre in the extracted genre list (so a duplicated genre
within one row double-counts that record), and the empty genre is never
counted. -/
theorem c4_rows (gcol scol : Nat) (c : Counts) (row : List String) :
    (row.length ≤ max gcol scol → processRow gcol scol c row = c)
  ∧ (max gcol scol < row.length →
      (pyStripS (row.getD scol "") = "" → processRow gcol scol c row = c)
      ∧ (pyStripS (row.getD scol "") ≠ "" →
          (∀ g t : String, g ≠ "" →
            countOf (processRow gcol scol c row) g t
              = countOf c g t
                + (if t = pyStripS (row.getD scol "") then
                    (extract_genres (row.getD gcol "")).count g else 0))
          ∧ ∀ t : String, countOf (processRow gcol scol c row) "" t = countOf c "" t)) := by
  constructor
  · intro hlen
    unfold processRow
    rw [if_pos hlen]
  · intro hlen
    have hnot : ¬ row.length ≤ max gcol scol := by omega
    refine ⟨?_, ?_⟩
    · intro hempty
      unfold processRow
      rw [if_neg hnot, if_pos hempty]
    · intro hne
      constructor
      · intro g t hg
        unfold processRow
        rw [if_neg hnot, if_neg hne]
        exact countOf_foldl_genres _ c _ g t hg
      · intro t
        unfold processRow
        rw [if_neg hnot, if_neg hne]
        exact countOf_foldl_empty _ c _ t

/-- C4 witness: a duplicated genre in one row increments that genre's count
twice for the row's schedule value. -/
theorem c4_witness :
    countOf (processRow 0 1 [] ["Action, Action", " 8PM "]) "Action" "8PM" = 2 := by
  have h := ((c4_rows 0 1 [] ["Action, Action", " 8PM "]).2 (by decide)).2 (by decide)
  have h2 := h.1 "Action" "8PM" (by decide)
  exact h2.trans (by decide)

/-!  Frequency-Table invariants (C9). -/

/-- Invariant of the Frequency Table: every inner schedule map is non-empty
with all counts at least 1, and the genre keys are distinct. -/
def CountsInv (c : Counts) : Prop :=
  (∀ g tc, (g, tc) ∈ c → tc ≠ [] ∧ ∀ t n, (t, n) ∈ tc → 1 ≤ n)
    ∧ (c.map Prod.fst).Nodup

lemma countsInv_addGenre (c : Counts) (g t : String) (h : CountsInv c) :
    CountsInv (addGenre c g t) := by
  obtain ⟨h1, h2⟩ := h
  constructor
  · intro g2 tc2 hm
    unfold addGenre at hm
    rcases mem_dictInsert _ _ _ _ _ hm with hin | ⟨hg2, htc⟩
    · exact h1 g2 tc2 hin
    · subst htc
      refine ⟨dictInsert_ne_nil _ _ _, ?_⟩
      intro t2 n hn
      rcases mem_dictInsert _ _ _ _ _ hn with hin2 | ⟨ht2, hnv⟩
      · rcases hgc : dictLookup c g with _ | tcv
        · rw [hgc] at hin2
          simp at hin2
        · rw [hgc] at hin2
          simp only [Option.getD_some] at hin2
          exact (h1 g tcv (dictLookup_mem c g tcv hgc)).2 t2 n hin2
      · subst hnv
        omega
  · unfold addGenre
    exact nodup_keys_dictInsert c g _ h2

lemma countsInv_foldl (gs : List String) (time : String) :
    ∀ c : Counts, CountsInv c →
      CountsInv (gs.foldl (fun c2 g => if g = "" then c2 else addGenre c2 g time) c) := by
  induction gs with
  | nil => exact fun c h => h
  | cons gg rest ih =>
      intro c h
      simp only [List.foldl_cons]
      by_cases hgg : gg = ""
      · rw [if_pos hgg]
        exact ih c h
      · rw [if_neg hgg]
        exact ih _ (countsInv_addGenre c gg time h)

lemma countsInv_processRow (gcol scol : Nat) (row : List String) (c : Counts)
    (h : CountsInv c) : CountsInv (processRow gcol scol c row) := by
  unfold processRow
  split_ifs
  · exact h
  · exact h
  · exact countsInv_foldl _ _ c h

lemma countsInv_aggregate (gcol scol : Nat) (rows : List (List String)) :
    CountsInv (rows.foldl (processRow gcol scol) []) := by
  suffices h : ∀ c, CountsInv c → CountsInv (rows.foldl (processRow gcol scol) c) by
    exact h [] ⟨by simp, by simp⟩
  induction rows with
  | nil => exact fun c h => h
  | cons r rest ih =>
      intro c h
      simp only [List.foldl_cons]
      exact ih _ (countsInv_processRow gcol scol r c h)

lemma bestTime_total (tc : List (String × Nat)) (h : tc ≠ []) :
    ∃ b, bestTime tc = some b := by
  cases tc with
  | nil => exact absurd rfl h
  | cons x xs => exact ⟨_, rfl⟩

lemma resultOf_keys (c : Counts) (h : ∀ g tc, (g, tc) ∈ c → tc ≠ []) :
    (resultOf c).map Prod.fst = c.map Prod.fst := by
  induction c with
  | nil => rfl
  | cons p t ih =>
      obtain ⟨g, tc⟩ := p
      have htc : tc ≠ [] := h g tc (List.mem_cons_self _ _)
      obtain ⟨x, xs, hx⟩ : ∃ x xs, tc = x :: xs := by
        cases tc with
        | nil => exact absurd rfl htc
        | cons x xs => exact ⟨x, xs, rfl⟩
      subst hx
      have ihh := ih (fun g2 tc2 hm => h g2 tc2 (List.mem_cons_of_mem _ hm))
      unfold resultOf at ihh ⊢
      have hb : bestTime (x :: xs)
          = some ((xs.foldl (fun b y => if keyLtB b y then y else b) x).1) := rfl
      simp [List.filterMap_cons, hb, ihh]

/-- C9: after aggregating any sequence of data rows, every genre entry of
the Frequency Table has a non-empty schedule map whose counts are all at
least 1 and genre keys are distinct; the Result Mapping has exactly the
Frequency Table's genres as its keys (one entry per genre seen); and the
Resolver is total on every non-empty per-genre count mapping. -/
theorem c9_invariants (gcol scol : Nat) (rows : List (List String)) :
    (∀ g tc, (g, tc) ∈ rows.foldl (processRow gcol scol) [] →
        tc ≠ [] ∧ ∀ t n, (t, n) ∈ tc → 1 ≤ n)
  ∧ ((rows.foldl (processRow gcol scol) []).map Prod.fst).Nodup
  ∧ (resultOf (rows.foldl (processRow gcol scol) [])).map Prod.fst
      = (rows.foldl (processRow gcol scol) []).map Prod.fst
  ∧ (∀ tc : List (String × Nat), tc ≠ [] → ∃ b, bestTime tc = some b) := by
  have hinv := countsInv_aggregate gcol scol rows
  exact ⟨hinv.1, hinv.2,
    resultOf_keys _ (fun g tc hm => (hinv.1 g tc hm).1),
    bestTime_total⟩

/-- C9 witness: the invariant and the Resolver totality applied at concrete
inputs. -/
theorem c9_witness :
    (([("8PM", (1 : Nat))] : List (String × Nat)) ≠ []
      ∧ ∀ t n, (t, n) ∈ [("8PM", (1 : Nat))] → 1 ≤ n)
  ∧ ∃ b, bestTime [("9PM", (2 : Nat))] = some b :=
  ⟨(c9_invariants 0 1 [["Comedy", "8PM"]]).1 "Comedy" [("8PM", 1)] (by decide),
   (c9_invariants 0 1 []).2.2.2 [("9PM", 2)] (by decide)⟩

/-!  Column resolution lemmas (C3). -/

lemma headerPairs_keys (n : Nat) (l : List String) :
    (headerPairs n l).map Prod.fst = l.map pyStripS := by
  induction l generalizing n with
  | nil => rfl
  | cons h t ih => simp [headerPairs, ih]

lemma dictInsert_of_lookup_none {β : Type} (d : List (String × β)) (k : String) (v : β)
    (h : dictLookup d k = none) : dictInsert d k v = d ++ [(k, v)] := by
  induction d with
  | nil => rfl
  | cons p t ih =>
      obtain ⟨k2, v2⟩ := p
      by_cases hne : k2 = k
      · simp [dictLookup, hne] at h
      · simp only [dictLookup] at h
        rw [if_neg hne] at h
        simp only [dictInsert]
        rw [if_neg hne, ih h]
        simp

lemma dictLookup_append_none {β : Type} (d e : List (String × β)) (k : String)
    (h1 : dictLookup d k = none) (h2 : dictLookup e k = none) :
    dictLookup (d ++ e) k = none := by
  induction d with
  | nil => simpa using h2
  | cons p t ih =>
      obtain ⟨k2, v2⟩ := p
      by_cases hne : k2 = k
      · simp [dictLookup, hne] at h1
      · simp only [dictLookup] at h1
        rw [if_neg hne] at h1
        simp only [List.cons_append, dictLookup]
        rw [if_neg hne]
        exact ih h1

lemma foldl_dictInsert_append {β : Type} (ps : List (String × β)) :
    ∀ d : List (String × β),
      (∀ p ∈ ps, dictLookup d p.1 = none) → (ps.map Prod.fst).Nodup →
      ps.foldl (fun d2 p => dictInsert d2 p.1 p.2) d = d ++ ps := by
  induction ps with
  | nil =>
      intro d _ _
      simp
  | cons p t ih =>
      obtain ⟨k, v⟩ := p
      intro d hnone hnd
      simp only [List.map_cons, List.nodup_cons] at hnd
      obtain ⟨hk, hndt⟩ := hnd
      simp only [List.foldl_cons]
      rw [dictInsert_of_lookup_none d k v (hnone (k, v) (List.mem_cons_self _ _))]
      rw [ih (d ++ [(k, v)]) ?_ hndt]
      · simp
      · intro q hq
        have hq1 : ¬ k = q.1 := by
          intro he
          exact hk (he ▸ List.mem_map_of_mem Prod.fst hq)
        refine dictLookup_append_none d [(k, v)] q.1
          (hnone q (List.mem_cons_of_mem _ hq)) ?_
        simp [dictLookup, hq1]

lemma headerMap_nodup (header : List String) (h : (header.map pyStripS).Nodup) :
    headerMap header = headerPairs 0 header := by
  unfold headerMap
  rw [foldl_dictInsert_append (headerPairs 0 header) [] (fun p hp => rfl) ?_]
  · simp
  · rw [headerPairs_keys]
    exact h

lemma headerPairs_find (pred : String → Bool) (l : List String) :
    ∀ n : Nat, ((headerPairs n l).find? (fun p => pred p.1)).map Prod.snd
      = (findIdxO (fun hh => pred (pyStripS hh)) l).map (· + n) := by
  induction l with
  | nil => intro n; rfl
  | cons h t ih =>
      intro n
      simp only [headerPairs, findIdxO]
      by_cases hp : pred (pyStripS h)
      · rw [List.find?_cons_of_pos _ (by simpa using hp), if_pos hp]
        simp
      · rw [List.find?_cons_of_neg _ (by simpa using hp), if_neg hp, ih (n + 1)]
        cases hfi : findIdxO (fun hh => pred (pyStripS hh)) t with
        | none => simp
        | some m =>
            simp
            omega

lemma genresColOf_nodup (header : List String) (h : (header.map pyStripS).Nodup) :
    genresColOf header = findIdxO hasGenreName header := by
  unfold genresColOf
  rw [headerMap_nodup header h,
    headerPairs_find (fun nm => containsSub (lowerS nm) "genre") header 0]
  cases hfi : findIdxO hasGenreName header with
  | none =>
      rw [show findIdxO (fun hh => containsSub (lowerS (pyStripS hh)) "genre") header
            = findIdxO hasGenreName header from rfl, hfi]
      rfl
  | some m =>
      rw [show findIdxO (fun hh => containsSub (lowerS (pyStripS hh)) "genre") header
            = findIdxO hasGenreName header from rfl, hfi]
      simp

lemma scheduleColOf_nodup (header : List String) (h : (header.map pyStripS).Nodup) :
    scheduleColOf header = findIdxO hasScheduleName header := by
  unfold scheduleColOf
  rw [headerMap_nodup header h,
    headerPairs_find
      (fun nm => containsSub (lowerS nm) "schedule" && containsSub (lowerS nm) "time")
      header 0]
  cases hfi : findIdxO hasScheduleName header with
  | none =>
      rw [show findIdxO (fun hh => containsSub (lowerS (pyStripS hh)) "schedule"
              && containsSub (lowerS (pyStripS hh)) "time") header
            = findIdxO hasScheduleName header from rfl, hfi]
      rfl
  | some m =>
      rw [show findIdxO (fun hh => containsSub (lowerS (pyStripS hh)) "schedule"
              && containsSub (lowerS (pyStripS hh)) "time") header
            = findIdxO hasScheduleName header from rfl, hfi]
      simp

/-- C3 counterexample: when the same trimmed header name occurs twice, the
dict comprehension keeps the LAST duplicate's index, so the genre column is
not the first header in header order containing `genre`. -/
theorem c3_cex :
    genresColOf ["Genres", "Genres", "Schedule (time)"] = some 1
  ∧ findIdxO hasGenreName ["Genres", "Genres", "Schedule (time)"] = some 0 := by
  constructor <;> decide

/-- C3 (amended): when the trimmed header names are pairwise distinct, the
genre column is the first header (in header order) containing `genre`
case-insensitively, and the schedule column the first containing both
`schedule` and `time` (with duplicated trimmed names the last duplicate's
index wins instead); a missing genre column always yields the genre-specific
error message — also when the schedule column is missing too — and a missing
schedule column with a present genre column yields the distinct
schedule-specific message. -/
theorem c3_columns :
    (∀ header : List String, (header.map pyStripS).Nodup →
        genresColOf header = findIdxO hasGenreName header
        ∧ scheduleColOf header = findIdxO hasScheduleName header)
  ∧ (∀ (header : List String) (rows : List (List String)),
        genresColOf header = none →
        aggregateRows (header :: rows)
          = Except.error "Could not find a Genres column in header")
  ∧ (∀ (header : List String) (rows : List (List String)) (g : Nat),
        genresColOf header = some g → scheduleColOf header = none →
        aggregateRows (header :: rows)
          = Except.error "Could not find a Schedule (time) column in header") := by
  refine ⟨?_, ?_, ?_⟩
  · intro header h
    exact ⟨genresColOf_nodup header h, scheduleColOf_nodup header h⟩
  · intro header rows hg
    simp [aggregateRows, hg]
  · intro header rows g hg hs
    simp [aggregateRows, hg, hs]

/-- C3 witness: the column rule at a distinct-name header, and both error
messages, the genre one firing when both columns are missing. -/
theorem c3_witness :
    genresColOf ["Title", " Genres", "Schedule (time)"] = some 1
  ∧ scheduleColOf ["Title", " Genres", "Schedule (time)"] = some 2
  ∧ aggregateRows [["Title"]]
      = Except.error "Could not find a Genres column in header"
  ∧ aggregateRows [["Genres"]]
      = Except.error "Could not find a Schedule (time) column in header" := by
  have h1 := c3_columns.1 ["Title", " Genres", "Schedule (time)"] (by decide)
  exact ⟨h1.1.trans (by decide), h1.2.trans (by decide),
    c3_columns.2.1 ["Title"] [] (by decide),
    c3_columns.2.2 ["Genres"] [] 0 (by decide) (by decide)⟩
